import Mathlib

/-
Verification of the buscaluso-bench trial-execution and statistics-compilation
engine (src/lib.rs), as a shallow embedding in Lean 4.

Modelling conventions:
* Rust `Duration` values and `f64` second values are idealized as exact
  rationals (ℚ); `Duration::as_secs_f64` is the identity under this reading.
* `f64` scores are either a finite rational or positive infinity, captured by
  the inductive type `FScore` below (scores in the source are never NaN or
  negative infinity: they are sums and quotients of nonnegative finite values
  and positive infinity).
* `usize`/`u8` counters are ℕ.
* `BTreeMap`/`BTreeSet` are modelled as association lists / sorted lists with
  ordered insertion (`alModifyOrInsert`, `setInsert`); in-place mutation of a
  looked-up entry is modelled by `alSet` / `pushResult`, which rewrite the
  entry with the matching key and leave every other entry untouched.
* Functions that can panic (`unwrap`, `assert!`) return an `Option`, with
  `none` for the panic.
* The external search engine (`BuscaCfg::search`), wall-clock sampling
  (`Instant::elapsed`) and the shuffle randomness are inputs of the model:
  an `EngineResponse` bundles the outcome of one invocation together with the
  elapsed-time values the code observes, and shuffles are passed in as the
  word orders they produce.
-/

instance exceptDecEq {ε α : Type} [DecidableEq ε] [DecidableEq α] : DecidableEq (Except ε α) :=
  fun a b =>
    match a, b with
    | Except.ok x, Except.ok y =>
        if h : x = y then isTrue (congrArg Except.ok h)
        else isFalse (fun hc => h (Except.ok.inj hc))
    | Except.ok _, Except.error _ => isFalse (fun hc => Except.noConfusion hc)
    | Except.error _, Except.ok _ => isFalse (fun hc => Except.noConfusion hc)
    | Except.error x, Except.error y =>
        if h : x = y then isTrue (congrArg Except.error h)
        else isFalse (fun hc => h (Except.error.inj hc))

/-- TrialOutcome of one probe: `found_index` is `Ok(Some rank)` (Found),
`Ok(None)` (NotFound) or `Err(message)` (Errored); `elapsed` is the wall-clock
time in seconds. Mirrors `BenchResult` in src/lib.rs. -/
structure BenchResult where
  found_index : Except String (Option ℕ)
  elapsed : ℚ
deriving DecidableEq, Repr

/-- Constructor `BenchResult::success` from src/lib.rs. -/
def BenchResult.success (found_index : ℕ) (elapsed : ℚ) : BenchResult :=
  { found_index := Except.ok (some found_index), elapsed := elapsed }

/-- Predicate `BenchResult::is_found`: matches `Ok(Some(_))`. -/
def BenchResult.is_found (r : BenchResult) : Bool :=
  match r.found_index with
  | Except.ok (some _) => true
  | _ => false

/-- Comparison by a linear order, as Rust derives `Ord` from `PartialOrd`:
`lt` when smaller, `eq` when equal, `gt` otherwise. -/
def cmpVia {α : Type} [LinearOrder α] (a b : α) : Ordering :=
  if a < b then Ordering.lt else if a = b then Ordering.eq else Ordering.gt

/-- Derived Rust `Ord` on `Option<usize>`: `None < Some(_)`, inner values
compared when both present. -/
def cmpOptionNat : Option ℕ → Option ℕ → Ordering
  | none, none => Ordering.eq
  | none, some _ => Ordering.lt
  | some _, none => Ordering.gt
  | some a, some b => cmpVia a b

/-- Derived Rust `Ord` on `Result<Option<usize>, String>`: `Ok(_) < Err(_)`,
inner values compared when the variants agree. -/
def cmpFoundIndex : Except String (Option ℕ) → Except String (Option ℕ) → Ordering
  | Except.ok a, Except.ok b => cmpOptionNat a b
  | Except.ok _, Except.error _ => Ordering.lt
  | Except.error _, Except.ok _ => Ordering.gt
  | Except.error a, Except.error b => cmpVia a b

/-- Ordering on trial outcomes, translated from `impl Ord for BenchResult`
(src/lib.rs lines 73-82): the match arms send any `Ok` above any `Err` and
`Ok(None)` above `Ok(Some(_))`; the fallthrough compares the pair
`(found_index, elapsed)` with the derived orders. -/
def BenchResult.cmp (a b : BenchResult) : Ordering :=
  match a.found_index, b.found_index with
  | Except.ok _, Except.error _ => Ordering.gt
  | Except.ok none, Except.ok (some _) => Ordering.gt
  | Except.error _, Except.ok _ => Ordering.lt
  | Except.ok (some _), Except.ok none => Ordering.lt
  | _, _ =>
    (cmpFoundIndex a.found_index b.found_index).then (cmpVia a.elapsed b.elapsed)

/-- Result-compiler configuration (`BenchResultCompiler`): `index_equivalent`
in seconds and `drop_fraction`; `BenchResultCompiler::new` asserts
`0 ≤ drop_fraction < 1`, which appears as a hypothesis of the theorems. -/
structure BenchResultCompiler where
  index_equivalent : ℚ
  drop_fraction : ℚ

/-- Value of an `f64` score: a finite rational or positive infinity. -/
inductive FScore where
  | fin (q : ℚ)
  | inf
deriving DecidableEq, Repr

/-- Test `f64::is_finite` on a score. -/
def FScore.isFinite : FScore → Bool
  | FScore.fin _ => true
  | FScore.inf => false

/-- Addition of `f64` scores: finite plus finite is finite, anything plus
positive infinity is positive infinity. -/
def FScore.add : FScore → FScore → FScore
  | FScore.fin a, FScore.fin b => FScore.fin (a + b)
  | _, _ => FScore.inf

/-- Comparison of `f64` scores (`partial_cmp`, never `None` here since scores
are not NaN): finite values by their rationals, infinity above every finite
value. -/
def FScore.cmp : FScore → FScore → Ordering
  | FScore.fin a, FScore.fin b => cmpVia a b
  | FScore.fin _, FScore.inf => Ordering.lt
  | FScore.inf, FScore.fin _ => Ordering.gt
  | FScore.inf, FScore.inf => Ordering.eq

/-- Scoring of one outcome (`BenchResultCompiler::score`):
`rank * index_equivalent + elapsed` for Found, positive infinity otherwise. -/
def BenchResultCompiler.score (c : BenchResultCompiler) (r : BenchResult) : FScore :=
  match r.found_index with
  | Except.ok (some i) => FScore.fin ((i : ℚ) * c.index_equivalent + r.elapsed)
  | _ => FScore.inf

/-- Compiled statistics for one bench (`CompiledBenchResult`): optional mean
score in seconds, list of error messages, optional inclusive rank range and
elapsed range (a range `a..=b` is modelled as the pair `(a, b)`). -/
structure CompiledBenchResult where
  score : Option ℚ
  errors : List String
  found_index : Option (ℕ × ℕ)
  elapsed : Option (ℚ × ℚ)
deriving DecidableEq, Repr

/-- Comparison `CompiledBenchResult::is_better_than`: any present score beats
an absent one; two present scores compare by value, lower is better. -/
def CompiledBenchResult.is_better_than (a b : CompiledBenchResult) : Bool :=
  match a.score, b.score with
  | some us, some them => decide (us < them)
  | some _, none => true
  | none, _ => false

/-- Value of `CompiledBenchResult::difference`: a signed `f64`, here either a
finite rational or one of the two infinities. -/
inductive DiffValue where
  | negInf
  | fin (q : ℚ)
  | posInf
deriving DecidableEq, Repr

/-- Test whether a difference value is strictly negative. -/
def DiffValue.isNeg : DiffValue → Bool
  | DiffValue.negInf => true
  | DiffValue.fin q => decide (q < 0)
  | DiffValue.posInf => false

/-- Signed difference `CompiledBenchResult::difference`: self minus other in
seconds when both scores are present, the signed infinities when exactly one
is present, zero when neither is. -/
def CompiledBenchResult.difference (a b : CompiledBenchResult) : DiffValue :=
  match a.score, b.score with
  | some us, some them => DiffValue.fin (us - them)
  | some _, none => DiffValue.negInf
  | none, some _ => DiffValue.posInf
  | none, none => DiffValue.fin 0

/-- Range helper `extend_range` from src/lib.rs: widen an inclusive range to
contain a value. -/
def extend_range {α : Type} [LinearOrder α] (range : α × α) (value : α) : α × α :=
  if value < range.1 then (value, range.2)
  else if value > range.2 then (range.1, value)
  else range

/-- Range helper `get_range` from src/lib.rs: the inclusive min..max range of
a sequence of values, or `none` when the sequence is empty. -/
def get_range {α : Type} [LinearOrder α] (values : List α) : Option (α × α) :=
  match values with
  | [] => none
  | first :: rest => some (rest.foldl extend_range (first, first))

/-- Sort key used by `BenchResultCompiler::compile`: `sort_by` on pairs
`(score, result)` compares the score first, ties broken by the outcome
ordering (Rust tuple `partial_cmp`, total here since scores are never NaN).
The boolean is the `le` form fed to the stable merge sort. -/
def scoredLe (x y : FScore × BenchResult) : Bool :=
  ((x.1.cmp y.1).then (x.2.cmp y.2)) ≠ Ordering.gt

/-- Score-sorted working list of `BenchResultCompiler::compile`: each outcome
paired with its score, sorted ascending (Rust `Vec::sort_by` is a stable merge
sort, as is `List.mergeSort`). -/
def sortedScored (c : BenchResultCompiler) (results : List BenchResult) :
    List (FScore × BenchResult) :=
  (results.map (fun r => (c.score r, r))).mergeSort scoredLe

/-- Number of entries dropped from each end in `compile`:
`(drop_fraction / 2.0 * len as f64).floor() as usize`. -/
def dropNum (drop_fraction : ℚ) (n : ℕ) : ℕ :=
  (⌊drop_fraction / 2 * (n : ℚ)⌋).toNat

/-- Number of entries kept in `compile`: `results.len() - 2 * drop_num`
(usize subtraction, here ℕ subtraction). -/
def keepNum (drop_fraction : ℚ) (n : ℕ) : ℕ :=
  n - 2 * dropNum drop_fraction n

/-- Trimmed slice `&results[drop_num..][..keep_num]` of the score-sorted
list. -/
def trimmedScored (c : BenchResultCompiler) (results : List BenchResult) :
    List (FScore × BenchResult) :=
  ((sortedScored c results).drop (dropNum c.drop_fraction results.length)).take
    (keepNum c.drop_fraction results.length)

/-- Rank of a Found outcome, `none` otherwise; stands for the
`found_index.as_ref().unwrap().unwrap()` read in `compile`, which is only
evaluated on entries whose score is finite, i.e. exactly the Found ones
(theorem c9_score_finite_iff_found). -/
def foundIndexOf (r : BenchResult) : Option ℕ :=
  match r.found_index with
  | Except.ok o => o
  | Except.error _ => none

/-- Statistics compilation `BenchResultCompiler::compile` (src/lib.rs lines
159-201): score and sort all outcomes, collect every error message of the
untrimmed sorted list, trim `drop_num` entries from each end, take rank and
elapsed ranges over the finite-score entries of the trimmed slice, and mean
the trimmed scores. Returns `none` exactly on an empty input, where the Rust
code panics on `assert!(!results.is_empty())`; the `keep_num = 0` guard in
the mean mirrors `is_finite()` rejecting the NaN of `0.0 / 0.0` (with the
configured `drop_fraction < 1`, `keep_num` is never 0, see theorem
c5_trim_bounds). -/
def BenchResultCompiler.compile (c : BenchResultCompiler) (results : List BenchResult) :
    Option CompiledBenchResult :=
  if results.isEmpty then none
  else
    let sorted := sortedScored c results
    let errors : List String := sorted.filterMap (fun p =>
      match p.2.found_index with
      | Except.error m => some m
      | Except.ok _ => none)
    let keep_num := keepNum c.drop_fraction results.length
    let trimmed := trimmedScored c results
    let finites := trimmed.filter (fun p => p.1.isFinite)
    let elapsed := get_range (finites.map (fun p => p.2.elapsed))
    let found_index := get_range (finites.filterMap (fun p => foundIndexOf p.2))
    let total := (trimmed.map Prod.fst).foldl FScore.add (FScore.fin 0)
    let score : Option ℚ :=
      match total with
      | FScore.fin q => if keep_num = 0 then none else some (q / (keep_num : ℚ))
      | FScore.inf => none
    some { score := score, errors := errors, found_index := found_index, elapsed := elapsed }

/-- Error list of an optional compiled result, the empty list when
compilation paniced on an empty history. -/
def errorsOfCompiled : Option CompiledBenchResult → List String
  | none => []
  | some o => o.errors

/-- Lookup in an association list modelling a `BTreeMap`: the value stored
under the first key comparing equal. -/
def alLookup {κ ν : Type} [LinearOrder κ] (k : κ) : List (κ × ν) → Option ν
  | [] => none
  | (k1, v) :: rest =>
    match cmpVia k k1 with
    | Ordering.eq => some v
    | _ => alLookup k rest

/-- Entry API of `BTreeMap`: `entry(k).or_default()` followed by an update of
the stored value; inserts `f d` at the ordered position when the key is
absent, rewrites the stored value through `f` when it is present. -/
def alModifyOrInsert {κ ν : Type} [LinearOrder κ] (k : κ) (f : ν → ν) (d : ν) :
    List (κ × ν) → List (κ × ν)
  | [] => [(k, f d)]
  | (k1, v) :: rest =>
    match cmpVia k k1 with
    | Ordering.lt => (k, f d) :: (k1, v) :: rest
    | Ordering.eq => (k1, f v) :: rest
    | Ordering.gt => (k1, v) :: alModifyOrInsert k f d rest

/-- Mutation through `get_mut(k)`: replace the value stored under `k`, leave
every other entry untouched (a no-op when the key is absent; the source only
uses it on keys it has just looked up). -/
def alSet {κ ν : Type} [LinearOrder κ] (k : κ) (v : ν) (l : List (κ × ν)) : List (κ × ν) :=
  l.map (fun p =>
    match cmpVia k p.1 with
    | Ordering.eq => (p.1, v)
    | _ => p)

/-- Ordered insertion into a sorted word list, modelling
`BTreeSet::<String>::insert`. -/
def setInsert (w : String) : List String → List String
  | [] => [w]
  | x :: rest =>
    match cmpVia w x with
    | Ordering.lt => w :: x :: rest
    | Ordering.eq => x :: rest
    | Ordering.gt => x :: setInsert w rest

/-- Target-group: a `BTreeSet<String>` as its sorted list of words. -/
abbrev TargetGroup := List String

/-- Build a target-group from a word slice, `BTreeSet::from_iter`. -/
def targetSet (targets : List String) : TargetGroup :=
  targets.foldl (fun s w => setInsert w s) []

/-- Result histories of one start word: `BTreeMap<BTreeSet<String>, Vec<BenchResult>>`. -/
abbrev WordBenches := List (TargetGroup × List BenchResult)

/-- Result Ledger `Bencher`: map from start word to its target-group
histories. -/
structure Bencher where
  benches : List (String × WordBenches)
deriving DecidableEq, Repr

/-- Constructor `Bencher::new`. -/
def Bencher.new : Bencher := { benches := [] }

/-- Registration `Bencher::add_bench` (src/lib.rs lines 258-266):
`self.benches.entry(start_word).or_default().entry(set).or_default()` — the
map of the start word is created if absent, then the target-group entry is created
with an empty history if absent; an existing history is kept as is. -/
def Bencher.add_bench (b : Bencher) (start_word : String) (targets : List String) : Bencher :=
  { benches :=
      alModifyOrInsert start_word
        (fun m => alModifyOrInsert (targetSet targets) id ([] : List BenchResult) m)
        ([] : WordBenches) b.benches }

/-- Push one outcome onto the history stored under a target-group key:
`benches.get_mut(target).unwrap().push(result)`. -/
def pushResult (t : TargetGroup) (res : BenchResult) (m : WordBenches) : WordBenches :=
  m.map (fun p =>
    match cmpVia t p.1 with
    | Ordering.eq => (p.1, p.2 ++ [res])
    | _ => p)

/-- Match-state machine `BenchRunner`: the target-groups still unresolved and
the union of all their words. -/
structure BenchRunner where
  remaining_targets : List TargetGroup
  all_target_words : List String
deriving DecidableEq, Repr

/-- Constructor `BenchRunner::new`. -/
def BenchRunner.new : BenchRunner :=
  { remaining_targets := [], all_target_words := [] }

/-- Registration `BenchRunner::add_targets`: push a clone of the group and
insert each of its words into the union set. -/
def BenchRunner.add_targets (r : BenchRunner) (targets : TargetGroup) : BenchRunner :=
  { remaining_targets := r.remaining_targets ++ [targets],
    all_target_words := targets.foldl (fun s w => setInsert w s) r.all_target_words }

/-- Test `BenchRunner::is_done`: no unresolved target-groups remain. -/
def BenchRunner.is_done (r : BenchRunner) : Bool :=
  r.remaining_targets.isEmpty

/-- Semantics of `Vec::swap_remove(i)`: element `i` is overwritten with the
last element, and the last element is popped. -/
def swapRemove {α : Type} (l : List α) (i : ℕ) : List α :=
  match l.getLast? with
  | none => l
  | some last => (l.set i last).dropLast

/-- Scan loop inside `BenchRunner::on_word_found`: walk `remaining_targets`
from index `i`; a group containing the word is swap-removed and accumulated
as a hit, otherwise the index advances. Returns the surviving groups and the
hit groups in callback order. -/
def onWordFoundLoop (word : String) (ts : List TargetGroup) (i : ℕ)
    (hits : List TargetGroup) : List TargetGroup × List TargetGroup :=
  if h : i < ts.length then
    let target := ts.get ⟨i, h⟩
    if target.contains word then
      onWordFoundLoop word (swapRemove ts i) i (hits ++ [target])
    else
      onWordFoundLoop word ts (i + 1) hits
  else (ts, hits)
termination_by ts.length - i
decreasing_by
  · rcases hl : ts.getLast? with _ | last
    · rw [List.getLast?_eq_none_iff] at hl
      subst hl
      simp at h
    · have hsl : (swapRemove ts i).length = ts.length - 1 := by
        unfold swapRemove
        rw [hl]
        simp
      omega
  · omega

/-- Match step `BenchRunner::on_word_found` (src/lib.rs lines 454-467): when
the word belongs to the union, every unresolved group containing it is removed
and reported as a hit; the word-union set is left as is. -/
def BenchRunner.on_word_found (r : BenchRunner) (word : String) :
    BenchRunner × List TargetGroup :=
  if r.all_target_words.contains word then
    let res := onWordFoundLoop word r.remaining_targets 0 []
    ({ remaining_targets := res.1, all_target_words := r.all_target_words }, res.2)
  else (r, [])

/-- Run configuration `BenchRunCfg` (the fields the orchestrator reads;
`repeat` is spelled `repeatCount` because `repeat` is reserved in Lean). -/
structure BenchRunCfg where
  repeatCount : ℕ
  repeat_failed : ℕ
  timeout : ℚ
  verbose : ℕ

/-- Response of one `cfg.search(start_word)` invocation, together with the
wall-clock values the code observes during it: `failure` carries the error
message and the elapsed time taken at the `Err` branch; `stream` carries the
finite candidate sequence actually consumed (each step an optional word, with
the elapsed time sampled when a word is processed and the elapsed time at the
timeout check of the loop) and the elapsed time sampled after the loop. -/
inductive EngineResponse where
  | failure (msg : String) (elapsed : ℚ)
  | stream (steps : List (Option String × ℚ × ℚ)) (finalElapsed : ℚ)

/-- Scheduling condition of `run_benches_for_word`: a target-group is added
to the runner when `results.len() < repeat_failed || results.iter().any(is_found)`. -/
def schedBool (run_cfg : BenchRunCfg) (results : List BenchResult) : Bool :=
  decide (results.length < run_cfg.repeat_failed) || results.any BenchResult.is_found

/-- Runner construction loop of `run_benches_for_word`: every target-group of
the start word satisfying the scheduling condition is added, in map order. -/
def buildRunner (run_cfg : BenchRunCfg) (benches : WordBenches) : BenchRunner :=
  benches.foldl
    (fun r p => if schedBool run_cfg p.2 then r.add_targets p.1 else r)
    BenchRunner.new

/-- Stream-consumption loop of `run_benches_for_word` (Ok branch): while the
runner is not done, pull the next step; a produced word is matched (hits are
recorded as `BenchResult::success(word_idx, elapsed)`) and `word_idx`
advances; a `None` step changes nothing; stream exhaustion breaks out; after
each step the loop breaks when the elapsed time has reached the timeout. -/
def runStreamLoop (timeout : ℚ) (runner : BenchRunner) (benches : WordBenches)
    (word_idx : ℕ) : List (Option String × ℚ × ℚ) → BenchRunner × WordBenches
  | [] => (runner, benches)
  | step :: rest =>
    if runner.is_done then (runner, benches)
    else
      let next :=
        match step.1 with
        | some w =>
          let found := runner.on_word_found w
          (found.1,
           found.2.foldl
             (fun bm t => pushResult t (BenchResult.success word_idx step.2.1) bm) benches,
           word_idx + 1)
        | none => (runner, benches, word_idx)
      if timeout ≤ step.2.2 then (next.1, next.2.1)
      else runStreamLoop timeout next.1 next.2.1 next.2.2 rest

/-- Per-word trial run `Bencher::run_benches_for_word` (src/lib.rs lines
345-406), with the engine and clock abstracted into `search`. Returns the new
ledger and whether the engine was invoked. The Rust code unwraps the start
entry of the start word (the orchestrator only calls it on existing keys); a missing key
leaves the ledger unchanged here. If no target-group qualifies the word is
skipped before the engine call; on engine failure one Errored outcome is
pushed onto every history of the word; otherwise the stream is consumed and
every still-unresolved group receives a NotFound outcome. -/
def Bencher.run_benches_for_word (b : Bencher) (search : String → EngineResponse)
    (run_cfg : BenchRunCfg) (start_word : String) : Bencher × Bool :=
  match alLookup start_word b.benches with
  | none => (b, false)
  | some benches =>
    let runner := buildRunner run_cfg benches
    if runner.is_done then (b, false)
    else
      match search start_word with
      | EngineResponse.failure msg elapsed =>
        let benches2 := benches.map (fun p =>
          (p.1, p.2 ++ [{ found_index := Except.error msg, elapsed := elapsed : BenchResult }]))
        ({ benches := alSet start_word benches2 b.benches }, true)
      | EngineResponse.stream steps finalElapsed =>
        let run := runStreamLoop run_cfg.timeout runner benches 0 steps
        let benches2 := run.1.remaining_targets.foldl
          (fun bm t =>
            pushResult t { found_index := Except.ok none, elapsed := finalElapsed } bm)
          run.2
        ({ benches := alSet start_word benches2 b.benches }, true)

/-- Success-pruning loop of `Bencher::clear_successes`: walk the history with
an index, removing Found entries in place and advancing past the others. -/
def clearVecLoop (v : List BenchResult) (i : ℕ) : List BenchResult :=
  if h : i < v.length then
    if (v.get ⟨i, h⟩).is_found then clearVecLoop (v.eraseIdx i) i
    else clearVecLoop v (i + 1)
  else v
termination_by v.length - i
decreasing_by
  · rw [List.length_eraseIdx, if_pos h]
    omega
  · omega

/-- Pruning `Bencher::clear_successes` (src/lib.rs lines 300-313): every
history of every start word is walked by `clearVecLoop`. -/
def Bencher.clear_successes (b : Bencher) : Bencher :=
  { benches := b.benches.map (fun p =>
      (p.1, p.2.map (fun q => (q.1, clearVecLoop q.2 0)))) }

/-- Pass body of `Bencher::run_benches`: run each start word of the shuffled
order in turn. -/
def runPass (search : String → EngineResponse) (run_cfg : BenchRunCfg)
    (order : List String) (b : Bencher) : Bencher :=
  order.foldl (fun acc w => (acc.run_benches_for_word search run_cfg w).1) b

/-- Orchestrator `Bencher::run_benches` (src/lib.rs lines 315-343), with the
engine and the shuffles abstracted: pass `i` runs the words in order
`orders i` against engine behaviour `env i` (index 0 is the warm-up pass,
indexes 1..repeat are the timed passes). The warm-up pass runs first, then
`clear_successes` once, then exactly `repeatCount` further passes. -/
def Bencher.run_benches (b : Bencher) (env : ℕ → String → EngineResponse)
    (orders : ℕ → List String) (run_cfg : BenchRunCfg) : Bencher :=
  let warmed := runPass (env 0) run_cfg (orders 0) b
  let cleared := warmed.clear_successes
  (List.range run_cfg.repeatCount).foldl
    (fun acc i => runPass (env (i + 1)) run_cfg (orders (i + 1)) acc) cleared

/-- Naming `set_bench_name` (src/lib.rs lines 469-479): the canonical bench
name built from the start word and its target-group; the source unwraps the
first target word, so an empty target-group is a panic, `none` here. -/
def set_bench_name (start_word : String) (targets : TargetGroup) : Option String :=
  match targets with
  | [] => none
  | t :: rest =>
    some (rest.foldl (fun acc w => acc ++ " | " ++ w) (start_word ++ " = " ++ t))

/-- Inner loop of `Bencher::get_results` over the target-groups of one start
word: the name of each target-group is built (a panic on an empty group propagates
as `none`) and paired with every recorded outcome of its history in order. -/
def getResultsGroups (start_word : String) :
    List (TargetGroup × List BenchResult) → Option (List (String × BenchResult))
  | [] => some []
  | (t, h) :: rest => do
    let name ← set_bench_name start_word t
    let tail ← getResultsGroups start_word rest
    pure (h.map (fun r => (name, r)) ++ tail)

/-- Outer loop of `Bencher::get_results` over the start words. -/
def getResultsWords : List (String × WordBenches) → Option (List (String × BenchResult))
  | [] => some []
  | (w, m) :: rest => do
    let here ← getResultsGroups w m
    let tail ← getResultsWords rest
    pure (here ++ tail)

/-- Result export `Bencher::get_results` (src/lib.rs lines 408-421): one
(bench-name, outcome) pair per recorded outcome, in ledger order; `none` when
`set_bench_name` panics on an empty target-group. -/
def Bencher.get_results (b : Bencher) : Option (List (String × BenchResult)) :=
  getResultsWords b.benches

/-- Total number of recorded outcomes in a ledger. -/
def totalOutcomes (b : Bencher) : ℕ :=
  (b.benches.map (fun p => (p.2.map (fun q => q.2.length)).sum)).sum

theorem cmpVia_eq_iff {α : Type} [LinearOrder α] (a b : α) :
    cmpVia a b = Ordering.eq ↔ a = b := by
  unfold cmpVia
  split_ifs with h1 h2
  · exact iff_of_false (by decide) (ne_of_lt h1)
  · exact iff_of_true rfl h2
  · exact iff_of_false (by decide) h2

theorem cmpVia_self {α : Type} [LinearOrder α] (a : α) : cmpVia a a = Ordering.eq :=
  (cmpVia_eq_iff a a).mpr rfl

theorem alLookup_alModifyOrInsert_exists {κ ν : Type} [LinearOrder κ]
    (k : κ) (f : ν → ν) (d : ν) (l : List (κ × ν)) :
    ∃ v, alLookup k (alModifyOrInsert k f d l) = some (f v) := by
  induction l with
  | nil =>
    exact ⟨d, by simp [alModifyOrInsert, alLookup, cmpVia_self]⟩
  | cons p rest ih =>
    obtain ⟨k1, v1⟩ := p
    rcases hc : cmpVia k k1 with _ | _ | _
    · exact ⟨d, by simp [alModifyOrInsert, hc, alLookup, cmpVia_self]⟩
    · exact ⟨v1, by simp [alModifyOrInsert, hc, alLookup]⟩
    · obtain ⟨v, hv⟩ := ih
      exact ⟨v, by simp [alModifyOrInsert, hc, alLookup, hv]⟩

theorem alLookup_alSet_self {κ ν : Type} [LinearOrder κ]
    (k : κ) (v : ν) (l : List (κ × ν)) (w : ν) (h : alLookup k l = some w) :
    alLookup k (alSet k v l) = some v := by
  induction l with
  | nil => simp [alLookup] at h
  | cons p rest ih =>
    obtain ⟨k1, v1⟩ := p
    rcases hc : cmpVia k k1 with _ | _ | _
    · simp only [alLookup, hc] at h
      simp only [alSet, List.map_cons, hc, alLookup]
      exact ih h
    · simp only [alSet, List.map_cons, hc, alLookup]
    · simp only [alLookup, hc] at h
      simp only [alSet, List.map_cons, hc, alLookup]
      exact ih h

theorem alLookup_alSet_ne {κ ν : Type} [LinearOrder κ]
    (k w : κ) (v : ν) (l : List (κ × ν)) (hw : w ≠ k) :
    alLookup w (alSet k v l) = alLookup w l := by
  induction l with
  | nil => rfl
  | cons p rest ih =>
    obtain ⟨k1, v1⟩ := p
    rcases hck : cmpVia k k1 with _ | _ | _ <;>
      rcases hcw : cmpVia w k1 with _ | _ | _ <;>
        simp only [alSet, List.map_cons, hck, alLookup, hcw] <;>
          first
          | exact ih
          | rfl
          | exact absurd (((cmpVia_eq_iff w k1).mp hcw).trans
              ((cmpVia_eq_iff k k1).mp hck).symm) hw

/-- Claim C1, as stated, is false on the code: the Found outcome of rank 0 and
elapsed 0 does not compare strictly less than the Errored outcome with empty
message and elapsed 0 — `BenchResult::cmp` returns `Greater` (the match arm
`(Ok(_), Err(_)) => Ordering::Greater` puts every Ok-shaped outcome above
every Err-shaped one). -/
theorem c1_counterexample :
    ¬ (BenchResult.cmp { found_index := Except.ok (some 0), elapsed := 0 }
        { found_index := Except.error "", elapsed := 0 } = Ordering.lt) := by
  intro h
  exact Ordering.noConfusion h

/-- Claim C1 amended: under the defined ordering the shapes rank as
Errored < Found < NotFound — every Errored outcome compares strictly less
than every Found outcome, every Found outcome compares strictly less than
every NotFound outcome, and every Errored outcome compares strictly less than
every NotFound outcome, regardless of rank, elapsed, or message values. -/
theorem c1_shape_order :
    ∀ (m : String) (i : ℕ) (e1 e2 e3 : ℚ),
      BenchResult.cmp { found_index := Except.error m, elapsed := e1 }
        { found_index := Except.ok (some i), elapsed := e2 } = Ordering.lt ∧
      BenchResult.cmp { found_index := Except.ok (some i), elapsed := e2 }
        { found_index := Except.ok none, elapsed := e3 } = Ordering.lt ∧
      BenchResult.cmp { found_index := Except.error m, elapsed := e1 }
        { found_index := Except.ok none, elapsed := e3 } = Ordering.lt := by
  intro m i e1 e2 e3
  exact ⟨rfl, rfl, rfl⟩

/-- Claim C9: the computed score is a finite number if and only if the outcome
is Found, and every NotFound and every Errored outcome scores positive
infinity. -/
theorem c9_score_finite_iff_found :
    ∀ (c : BenchResultCompiler) (r : BenchResult) (e : ℚ) (m : String),
      ((c.score r).isFinite = r.is_found) ∧
      (c.score { found_index := Except.ok none, elapsed := e } = FScore.inf) ∧
      (c.score { found_index := Except.error m, elapsed := e } = FScore.inf) := by
  intro c r e m
  refine ⟨?_, rfl, rfl⟩
  obtain ⟨fi, el⟩ := r
  rcases fi with msg | fi
  · rfl
  · rcases fi with _ | i <;> rfl

/-- Claim C7: `is_better_than` is irreflexive, asymmetric and transitive on
compiled results, and `a.is_better_than b` holds exactly when
`a.difference b` is strictly negative (negative infinity when only the score
of `a` is present, the signed seconds difference when both are present). -/
theorem c7_is_better_than_strict_consistent :
    (∀ a : CompiledBenchResult, a.is_better_than a = false) ∧
    (∀ a b : CompiledBenchResult,
      a.is_better_than b = true → b.is_better_than a = false) ∧
    (∀ a b c : CompiledBenchResult,
      a.is_better_than b = true → b.is_better_than c = true →
        a.is_better_than c = true) ∧
    (∀ a b : CompiledBenchResult,
      a.is_better_than b = true ↔ (a.difference b).isNeg = true) := by
  refine ⟨?_, ?_, ?_, ?_⟩
  · intro a
    unfold CompiledBenchResult.is_better_than
    rcases ha : a.score with _ | us
    · rfl
    · simp
  · intro a b hab
    unfold CompiledBenchResult.is_better_than at hab ⊢
    rcases ha : a.score with _ | us <;> rcases hb : b.score with _ | them <;>
      simp [ha, hb] at hab ⊢
    exact le_of_lt hab
  · intro a b c hab hbc
    unfold CompiledBenchResult.is_better_than at hab hbc ⊢
    rcases ha : a.score with _ | us <;> rcases hb : b.score with _ | them <;>
      rcases hc : c.score with _ | it <;> simp [ha, hb, hc] at hab hbc ⊢
    exact lt_trans hab hbc
  · intro a b
    unfold CompiledBenchResult.is_better_than CompiledBenchResult.difference
    rcases ha : a.score with _ | us <;> rcases hb : b.score with _ | them <;>
      simp [DiffValue.isNeg, sub_neg]

/-- Claim C7 witness: a compiled result with a present score is better than
one with none, and, by the asymmetry of the ordering, not vice versa. -/
theorem c7_witness :
    CompiledBenchResult.is_better_than
        { score := some 0, errors := [], found_index := none, elapsed := none }
        { score := none, errors := [], found_index := none, elapsed := none } = true ∧
    CompiledBenchResult.is_better_than
        { score := none, errors := [], found_index := none, elapsed := none }
        { score := some 0, errors := [], found_index := none, elapsed := none } = false :=
  ⟨rfl, c7_is_better_than_strict_consistent.2.1
    { score := some 0, errors := [], found_index := none, elapsed := none }
    { score := none, errors := [], found_index := none, elapsed := none } rfl⟩

/-- Claim C8, as stated, is false on the code: registering an empty target
list on a fresh Bencher neither fails nor leaves the registered target-groups
unchanged — `add_bench` records an empty target-group under the start word. -/
theorem c8_counterexample :
    (Bencher.new.add_bench "x" []).benches ≠ Bencher.new.benches := by
  intro h
  exact List.noConfusion h

/-- Claim C8 amended: `add_bench` performs no validation — registering an
empty target list records the empty target-group under that start word (with
its previous history kept when it was already registered), rather than being
rejected. -/
theorem c8_add_bench_empty_records_empty_group :
    ∀ (b : Bencher) (s : String),
      ∃ m h, alLookup s (b.add_bench s []).benches = some m ∧
        alLookup ([] : TargetGroup) m = some h := by
  intro b s
  obtain ⟨m0, hm0⟩ := alLookup_alModifyOrInsert_exists s
    (fun m => alModifyOrInsert (targetSet []) id ([] : List BenchResult) m)
    ([] : WordBenches) b.benches
  obtain ⟨h0, hh0⟩ := alLookup_alModifyOrInsert_exists (targetSet [])
    (id : List BenchResult → List BenchResult) ([] : List BenchResult) m0
  exact ⟨alModifyOrInsert (targetSet []) id ([] : List BenchResult) m0, id h0, hm0, hh0⟩

theorem buildRunner_go (run_cfg : BenchRunCfg) (benches : WordBenches) (r : BenchRunner) :
    (benches.foldl
      (fun r p => if schedBool run_cfg p.2 then r.add_targets p.1 else r) r).remaining_targets =
      r.remaining_targets ++ (benches.filter (fun p => schedBool run_cfg p.2)).map Prod.fst := by
  induction benches generalizing r with
  | nil => simp
  | cons p rest ih =>
    by_cases h : schedBool run_cfg p.2
    · simp only [List.foldl_cons, if_pos h, List.filter_cons, h, if_true, List.map_cons]
      rw [ih]
      simp [BenchRunner.add_targets]
    · simp only [List.foldl_cons, if_neg h, List.filter_cons, h]
      rw [ih]
      simp [h]

theorem buildRunner_remaining (run_cfg : BenchRunCfg) (benches : WordBenches) :
    (buildRunner run_cfg benches).remaining_targets =
      (benches.filter (fun p => schedBool run_cfg p.2)).map Prod.fst := by
  unfold buildRunner
  rw [buildRunner_go]
  rfl

/-- Claim C3: in every pass, a target-group of the given start word is added
to the runner if and only if its recorded-outcome count is strictly less than
`repeat_failed` or some recorded outcome is Found (the scheduled
list of the runner is exactly the filter of the map of the word by that condition, in map
order); and when no target-group qualifies, `run_benches_for_word` returns
the ledger unchanged without invoking the search engine. -/
theorem c3_schedule_filter_and_skip :
    ∀ (run_cfg : BenchRunCfg) (search : String → EngineResponse) (b : Bencher)
      (start_word : String) (m : WordBenches),
      ((buildRunner run_cfg m).remaining_targets =
        (m.filter (fun p =>
          decide (p.2.length < run_cfg.repeat_failed) ||
            p.2.any BenchResult.is_found)).map Prod.fst) ∧
      (alLookup start_word b.benches = some m →
        m.filter (fun p => schedBool run_cfg p.2) = [] →
        b.run_benches_for_word search run_cfg start_word = (b, false)) := by
  intro run_cfg search b start_word m
  constructor
  · exact buildRunner_remaining run_cfg m
  · intro hm hfil
    unfold Bencher.run_benches_for_word
    rw [hm]
    have hdone : (buildRunner run_cfg m).is_done = true := by
      unfold BenchRunner.is_done
      rw [buildRunner_remaining, hfil]
      rfl
    simp [hdone]

/-- Claim C3 witness: with `repeat_failed = 0` and no Found outcome recorded,
the sole target-group of start word x is filtered out, and the whole start
word is skipped: the ledger is returned unchanged and the engine flag stays
false. -/
theorem c3_witness :
    (alLookup "x" (Bencher.mk [("x", [(["t"], [])])]).benches = some [(["t"], [])]) ∧
    (([(["t"], ([] : List BenchResult))] : WordBenches).filter
      (fun p => schedBool (BenchRunCfg.mk 3 0 10 0) p.2) = []) ∧
    ((Bencher.mk [("x", [(["t"], [])])]).run_benches_for_word
      (fun _ => EngineResponse.failure "unused" 0) (BenchRunCfg.mk 3 0 10 0) "x" =
      (Bencher.mk [("x", [(["t"], [])])], false)) := by
  refine ⟨?_, ?_, ?_⟩
  · simp [alLookup, cmpVia_self]
  · rfl
  · exact (c3_schedule_filter_and_skip (BenchRunCfg.mk 3 0 10 0)
      (fun _ => EngineResponse.failure "unused" 0) (Bencher.mk [("x", [(["t"], [])])])
      "x" [(["t"], [])]).2 (by simp [alLookup, cmpVia_self]) rfl

/-- Claim C2: for a start word with at least one target-group scheduled in
the current pass, an engine-start failure appends exactly one
Errored(message, elapsed) outcome to the history of every target-group
registered under that start word — scheduled or not — and leaves the
histories of every other start word unchanged (and the engine was indeed
invoked). -/
theorem c2_engine_failure_errors_all_groups :
    ∀ (b : Bencher) (run_cfg : BenchRunCfg) (search : String → EngineResponse)
      (start_word : String) (m : WordBenches) (msg : String) (e : ℚ),
      alLookup start_word b.benches = some m →
      m.filter (fun p => schedBool run_cfg p.2) ≠ [] →
      search start_word = EngineResponse.failure msg e →
      (alLookup start_word (b.run_benches_for_word search run_cfg start_word).1.benches =
        some (m.map (fun p =>
          (p.1, p.2 ++ [{ found_index := Except.error msg, elapsed := e }])))) ∧
      (∀ w, w ≠ start_word →
        alLookup w (b.run_benches_for_word search run_cfg start_word).1.benches =
          alLookup w b.benches) ∧
      ((b.run_benches_for_word search run_cfg start_word).2 = true) := by
  intro b run_cfg search start_word m msg e hm hfil hsearch
  have hdone : (buildRunner run_cfg m).is_done = false := by
    unfold BenchRunner.is_done
    rw [buildRunner_remaining]
    rcases hf : m.filter (fun p => schedBool run_cfg p.2) with _ | ⟨q, rest⟩
    · exact absurd hf hfil
    · rw [hf]
      rfl
  have hrun : b.run_benches_for_word search run_cfg start_word =
      ({ benches := alSet start_word
          (m.map (fun p =>
            (p.1, p.2 ++ [{ found_index := Except.error msg, elapsed := e }])))
          b.benches }, true) := by
    unfold Bencher.run_benches_for_word
    rw [hm]
    simp only [hdone, hsearch, Bool.false_eq_true, if_false]
  refine ⟨?_, ?_, ?_⟩
  · rw [hrun]
    exact alLookup_alSet_self start_word _ b.benches m hm
  · intro w hw
    rw [hrun]
    exact alLookup_alSet_ne start_word w _ b.benches hw
  · rw [hrun]

/-- Claim C2 witness: on a ledger with one start word x holding one scheduled
target-group with empty history, an engine failure with message boom at
elapsed 2 appends exactly the Errored outcome to the history of that group. -/
theorem c2_witness :
    (([(["t"], ([] : List BenchResult))] : WordBenches).filter
        (fun p => schedBool (BenchRunCfg.mk 3 1 10 0) p.2) ≠ []) ∧
    alLookup "x" ((Bencher.mk [("x", [(["t"], [])])]).run_benches_for_word
        (fun _ => EngineResponse.failure "boom" 2) (BenchRunCfg.mk 3 1 10 0) "x").1.benches =
      some [(["t"], [{ found_index := Except.error "boom", elapsed := 2 }])] := by
  refine ⟨by decide, ?_⟩
  have h := (c2_engine_failure_errors_all_groups (Bencher.mk [("x", [(["t"], [])])])
    (BenchRunCfg.mk 3 1 10 0) (fun _ => EngineResponse.failure "boom" 2) "x"
    [(["t"], [])] "boom" 2 (by simp [alLookup, cmpVia_self]) (by decide) rfl).1
  simpa using h

theorem take_eraseIdx_eq {α : Type} (l : List α) (i : ℕ) (h : i < l.length) :
    (l.eraseIdx i).take i = l.take i := by
  rw [List.eraseIdx_eq_take_drop_succ, List.take_append_eq_append_take, List.take_take]
  have h1 : (List.take i l).length = i := by
    rw [List.length_take]
    omega
  rw [h1]
  simp

theorem drop_eraseIdx_eq {α : Type} (l : List α) (i : ℕ) (h : i < l.length) :
    (l.eraseIdx i).drop i = l.drop (i + 1) := by
  rw [List.eraseIdx_eq_take_drop_succ, List.drop_append_eq_append_drop, List.drop_take]
  have h1 : (List.take i l).length = i := by
    rw [List.length_take]
    omega
  rw [h1]
  simp

theorem clearVecLoop_eq_filter (v : List BenchResult) (i : ℕ) :
    clearVecLoop v i = v.take i ++ (v.drop i).filter (fun r => !r.is_found) := by
  generalize hn : v.length - i = n
  induction n generalizing v i with
  | zero =>
    have hge : ¬ i < v.length := by omega
    rw [clearVecLoop, dif_neg hge, List.take_of_length_le (by omega),
      List.drop_of_length_le (by omega)]
    simp
  | succ n ih =>
    have hlt : i < v.length := by omega
    have hdropc : v.drop i = v[i] :: v.drop (i + 1) := List.drop_eq_getElem_cons hlt
    rw [clearVecLoop, dif_pos hlt]
    simp only [List.get_eq_getElem]
    by_cases hf : v[i].is_found
    · rw [if_pos hf]
      rw [ih (v.eraseIdx i) i (by rw [List.length_eraseIdx, if_pos hlt]; omega)]
      rw [take_eraseIdx_eq v i hlt, drop_eraseIdx_eq v i hlt, hdropc, List.filter_cons]
      simp [hf]
    · rw [if_neg hf]
      rw [ih v (i + 1) (by omega)]
      rw [hdropc, List.filter_cons, List.take_succ, List.getElem?_eq_getElem hlt]
      have hft : (!v[i].is_found) = true := by
        simp [hf]
      rw [if_pos hft]
      simp only [Option.toList, List.append_assoc, List.singleton_append]

/-- Claim C4: `clear_successes` removes exactly the Found outcomes from every
(start word, target-group) history, keeping every NotFound and Errored
outcome in its original relative order (each history becomes its own filter
by not-Found), and `run_benches` applies it exactly once, immediately after
the warm-up pass and before the `repeat` timed passes. -/
theorem c4_clear_successes_once_after_warmup :
    ∀ (b : Bencher) (env : ℕ → String → EngineResponse) (orders : ℕ → List String)
      (run_cfg : BenchRunCfg),
      (b.clear_successes.benches = b.benches.map (fun p =>
        (p.1, p.2.map (fun q => (q.1, q.2.filter (fun r => !r.is_found)))))) ∧
      (b.run_benches env orders run_cfg =
        (List.range run_cfg.repeatCount).foldl
          (fun acc i => runPass (env (i + 1)) run_cfg (orders (i + 1)) acc)
          (runPass (env 0) run_cfg (orders 0) b).clear_successes) := by
  intro b env orders run_cfg
  constructor
  · have hfun : (fun q : TargetGroup × List BenchResult => (q.1, clearVecLoop q.2 0)) =
        (fun q => (q.1, q.2.filter (fun r => !r.is_found))) := by
      funext q
      rw [clearVecLoop_eq_filter]
      simp
    simp only [Bencher.clear_successes, hfun]
  · rfl

theorem sortedScored_length (c : BenchResultCompiler) (results : List BenchResult) :
    (sortedScored c results).length = results.length := by
  unfold sortedScored
  rw [List.length_mergeSort, List.length_map]

/-- Claim C5: for a non-empty history of size n and a configured
`drop_fraction` in [0, 1), `compile` discards `drop = floor(drop_fraction / 2 * n)`
entries from each end of the score-sorted list and keeps
`keep = n - 2 * drop` entries; `2 * drop` never exceeds n (the usize
subtraction cannot underflow) and the trimmed slice is never empty, with
length exactly `keep ≥ 1`. -/
theorem c5_trim_bounds :
    ∀ (c : BenchResultCompiler) (results : List BenchResult),
      0 ≤ c.drop_fraction → c.drop_fraction < 1 → results ≠ [] →
      (2 * dropNum c.drop_fraction results.length < results.length) ∧
      (keepNum c.drop_fraction results.length =
        results.length - 2 * dropNum c.drop_fraction results.length) ∧
      (1 ≤ keepNum c.drop_fraction results.length) ∧
      ((trimmedScored c results).length = keepNum c.drop_fraction results.length) := by
  intro c results h0 h1 hne
  have hn : 1 ≤ results.length := List.length_pos.mpr hne
  have hmain : 2 * dropNum c.drop_fraction results.length < results.length := by
    unfold dropNum
    have hnq : (1:ℚ) ≤ (results.length : ℚ) := by exact_mod_cast hn
    have hx0 : (0:ℚ) ≤ c.drop_fraction / 2 * (results.length : ℚ) := by positivity
    have hfl0 : (0:ℤ) ≤ ⌊c.drop_fraction / 2 * (results.length : ℚ)⌋ :=
      Int.floor_nonneg.mpr hx0
    have hxlt : c.drop_fraction / 2 * (results.length : ℚ) < (results.length : ℚ) / 2 := by
      have hq : c.drop_fraction / 2 < 1 / 2 := by linarith
      have hnpos : (0:ℚ) < (results.length : ℚ) := by linarith
      nlinarith
    have hfl : (⌊c.drop_fraction / 2 * (results.length : ℚ)⌋ : ℚ) ≤
        c.drop_fraction / 2 * (results.length : ℚ) := Int.floor_le _
    have h2 : 2 * (⌊c.drop_fraction / 2 * (results.length : ℚ)⌋ : ℚ) <
        (results.length : ℚ) := by linarith
    have h2z : 2 * ⌊c.drop_fraction / 2 * (results.length : ℚ)⌋ <
        (results.length : ℤ) := by exact_mod_cast h2
    omega
  refine ⟨hmain, rfl, by unfold keepNum; omega, ?_⟩
  unfold trimmedScored
  rw [List.length_take, List.length_drop, sortedScored_length]
  unfold keepNum
  omega

/-- Claim C5 witness: with `drop_fraction = 1/2` and a one-element history,
the trimmed slice has exactly `keep` entries. -/
theorem c5_witness :
    (0 ≤ (BenchResultCompiler.mk 0 (1/2)).drop_fraction) ∧
    ((BenchResultCompiler.mk 0 (1/2)).drop_fraction < 1) ∧
    ((trimmedScored (BenchResultCompiler.mk 0 (1/2))
        [{ found_index := Except.ok none, elapsed := 0 }]).length =
      keepNum (BenchResultCompiler.mk 0 (1/2)).drop_fraction
        ([({ found_index := Except.ok none, elapsed := 0 } : BenchResult)].length)) :=
  ⟨by norm_num, by norm_num,
   (c5_trim_bounds (BenchResultCompiler.mk 0 (1/2)) _ (by norm_num) (by norm_num)
     (by simp)).2.2.2⟩

/-- Claim C6: every error message carried by an Errored outcome anywhere in a
compiled history — including outcomes later discarded by trimming — appears
in the errors list of the compiled result (the list is collected from the sorted
but untrimmed working list). -/
theorem c6_errors_survive_trimming :
    ∀ (c : BenchResultCompiler) (results : List BenchResult) (r : BenchResult) (msg : String),
      r ∈ results → r.found_index = Except.error msg →
      msg ∈ errorsOfCompiled (c.compile results) := by
  intro c results r msg hmem hfi
  have hne : results.isEmpty = false := by
    cases results
    · cases hmem
    · rfl
  unfold BenchResultCompiler.compile
  rw [hne]
  simp only [Bool.false_eq_true, if_false, errorsOfCompiled]
  apply List.mem_filterMap.mpr
  refine ⟨(c.score r, r), ?_, ?_⟩
  · apply (List.mergeSort_perm (results.map (fun x => (c.score x, x))) scoredLe).mem_iff.mpr
    exact List.mem_map.mpr ⟨r, hmem, rfl⟩
  · rw [hfi]

/-- Claim C6 witness: the error message boom of the sole Errored outcome of a
one-element history appears in the compiled error list. -/
theorem c6_witness :
    (({ found_index := Except.error "boom", elapsed := 0 } : BenchResult) ∈
      [({ found_index := Except.error "boom", elapsed := 0 } : BenchResult)]) ∧
    "boom" ∈ errorsOfCompiled ((BenchResultCompiler.mk 0 0).compile
      [{ found_index := Except.error "boom", elapsed := 0 }]) :=
  ⟨List.mem_singleton.mpr rfl,
   c6_errors_survive_trimming (BenchResultCompiler.mk 0 0) _ _ "boom"
     (List.mem_singleton.mpr rfl) rfl⟩

theorem getResultsGroups_empty_none (w : String) (m : List (TargetGroup × List BenchResult))
    (t : TargetGroup) (h : List BenchResult) (hmem : (t, h) ∈ m) (ht : t = []) :
    getResultsGroups w m = none := by
  induction m with
  | nil => cases hmem
  | cons p rest ih =>
    obtain ⟨t1, h1⟩ := p
    rcases List.mem_cons.mp hmem with heq | hmem2
    · injection heq with het heh
      subst ht
      rw [← het]
      rfl
    · have htail := ih hmem2
      simp only [getResultsGroups, htail]
      cases hsn : set_bench_name w t1 <;> simp

theorem getResultsGroups_nonempty (w : String) (m : List (TargetGroup × List BenchResult))
    (hall : ∀ p ∈ m, p.1 ≠ ([] : TargetGroup)) :
    ∃ l, getResultsGroups w m = some l ∧
      l.length = (m.map (fun q => q.2.length)).sum := by
  induction m with
  | nil => exact ⟨[], rfl, rfl⟩
  | cons p rest ih =>
    obtain ⟨t1, h1⟩ := p
    have ht1 : t1 ≠ [] := hall (t1, h1) (List.mem_cons_self _ _)
    obtain ⟨name, hname⟩ : ∃ s, set_bench_name w t1 = some s := by
      cases t1
      · exact absurd rfl ht1
      · exact ⟨_, rfl⟩
    obtain ⟨tail, htail, hlen⟩ := ih (fun p hp => hall p (List.mem_cons_of_mem _ hp))
    refine ⟨h1.map (fun r => (name, r)) ++ tail, ?_, ?_⟩
    · simp only [getResultsGroups, hname, htail, Option.bind_eq_bind, Option.some_bind]
      rfl
    · simp [hlen]

theorem getResultsWords_empty_none (bs : List (String × WordBenches))
    (hp : ∃ p ∈ bs, ∃ q ∈ p.2, q.1 = ([] : TargetGroup)) :
    getResultsWords bs = none := by
  induction bs with
  | nil =>
    obtain ⟨p, hpm, _⟩ := hp
    cases hpm
  | cons b rest ih =>
    obtain ⟨w1, m1⟩ := b
    obtain ⟨p, hpm, q, hqm, hq⟩ := hp
    rcases List.mem_cons.mp hpm with heq | hmem2
    · obtain ⟨t, h⟩ := q
      have hhere : getResultsGroups w1 m1 = none := by
        apply getResultsGroups_empty_none w1 m1 t h
        · rw [heq] at hqm
          exact hqm
        · exact hq
      simp [getResultsWords, hhere]
    · have htail := ih ⟨p, hmem2, q, hqm, hq⟩
      simp only [getResultsWords, htail]
      cases hsn : getResultsGroups w1 m1 <;> simp

theorem getResultsWords_nonempty (bs : List (String × WordBenches))
    (hall : ∀ p ∈ bs, ∀ q ∈ p.2, q.1 ≠ ([] : TargetGroup)) :
    ∃ l, getResultsWords bs = some l ∧
      l.length = (bs.map (fun p => (p.2.map (fun q => q.2.length)).sum)).sum := by
  induction bs with
  | nil => exact ⟨[], rfl, rfl⟩
  | cons b rest ih =>
    obtain ⟨w1, m1⟩ := b
    obtain ⟨here, hhere, hherelen⟩ := getResultsGroups_nonempty w1 m1
      (fun q hq => hall (w1, m1) (List.mem_cons_self _ _) q hq)
    obtain ⟨tail, htail, htaillen⟩ := ih
      (fun p hp q hq => hall p (List.mem_cons_of_mem _ hp) q hq)
    refine ⟨here ++ tail, ?_, ?_⟩
    · simp only [getResultsWords, hhere, htail, Option.bind_eq_bind, Option.some_bind]
      rfl
    · simp [hherelen, htaillen]

/-- Claim C10: `get_results` panics (via the unwrap of the first target word
in `set_bench_name`) whenever some registered target-group has an empty word
set; and on a Bencher whose registered target-groups are all non-empty it
returns without panicking, producing one (bench-name, outcome) pair per
recorded outcome. -/
theorem c10_get_results_panic :
    ∀ (b : Bencher),
      ((∃ p ∈ b.benches, ∃ q ∈ p.2, q.1 = ([] : TargetGroup)) → b.get_results = none) ∧
      ((∀ p ∈ b.benches, ∀ q ∈ p.2, q.1 ≠ ([] : TargetGroup)) →
        ∃ l, b.get_results = some l ∧ l.length = totalOutcomes b) := by
  intro b
  constructor
  · intro hp
    exact getResultsWords_empty_none b.benches hp
  · intro hall
    exact getResultsWords_nonempty b.benches hall

/-- Claim C10 witness: a ledger holding one target-group with an empty word
set makes `get_results` panic. -/
theorem c10_witness :
    (∃ p ∈ (Bencher.mk [("x", [([], [])])]).benches, ∃ q ∈ p.2, q.1 = ([] : TargetGroup)) ∧
    (Bencher.mk [("x", [([], [])])]).get_results = none :=
  ⟨⟨("x", [([], [])]), by simp, ([], []), by simp, rfl⟩,
   (c10_get_results_panic (Bencher.mk [("x", [([], [])])])).1
     ⟨("x", [([], [])]), by simp, ([], []), by simp, rfl⟩⟩
